import Mathlib

/-!
Verification of the Hybrid Semantic Retrieval Engine of the Edumate-ai
repository (`src/database/faiss_manager.py` and
`src/database/document_processor.py`).

The Python code is shallowly embedded: every engine function is translated
into an executable Lean definition over explicit state.  External
collaborators (the SentenceTransformer encoder, `faiss.normalize_L2`, the
faiss inner-product computation, `hashlib.md5`, PyPDF2/python-docx raw page
extraction) are black boxes per the specification and are modelled as
fields of an `Env` record; everything the repository itself computes is
translated from the source.  Floating point similarity values are modelled
as rationals.  Python exceptions are modelled with `Except`; a Python
`try/except` that swallows an error becomes a `match` that returns the
fallback value.
-/

namespace Edumate

/-! ## Character/string helpers (structural models of the Python string ops) -/

/-- Model of Python `needle`-is-a-prefix-of-`hay` over char lists. -/
def leadsList : List Char → List Char → Bool
  | [], _ => true
  | _ :: _, [] => false
  | a :: as, b :: bs => a == b && leadsList as bs

/-- Model of Python `needle in hay` (contiguous substring test) over char lists. -/
def subList (needle : List Char) : List Char → Bool
  | [] => needle.isEmpty
  | b :: bs => leadsList needle (b :: bs) || subList needle bs

/-- Python `needle in hay` on strings. -/
def strHasSub (hay needle : String) : Bool := subList needle.data hay.data

/-- Python `s.lower()` (ASCII model). -/
def lowerStr (s : String) : String := String.mk (s.data.map Char.toLower)

/-- Python `s.endswith(suf)`. -/
def endsWithStr (s suf : String) : Bool := leadsList suf.data.reverse s.data.reverse

/-- Python `s[:n]` for a nonnegative `n`. -/
def strTake (s : String) (n : Nat) : String := String.mk (s.data.take n)

/-- Accumulator-style splitter behind `splitWords`. -/
def wsplitAux : List Char → List Char → List String
  | [], acc => if acc.isEmpty then [] else [String.mk acc.reverse]
  | c :: rest, acc =>
    if c.isWhitespace then
      (if acc.isEmpty then wsplitAux rest [] else String.mk acc.reverse :: wsplitAux rest [])
    else wsplitAux rest (c :: acc)

/-- Python `text.split()`: split on runs of whitespace, dropping empty pieces. -/
def splitWords (s : String) : List String := wsplitAux s.data []

/-- Python `' '.join(words)`. -/
def joinSp : List String → String
  | [] => ""
  | [w] => w
  | w :: rest => w ++ " " ++ joinSp rest

/-- Strip leading and trailing whitespace from a char list. -/
def stripChars (cs : List Char) : List Char :=
  ((cs.dropWhile Char.isWhitespace).reverse.dropWhile Char.isWhitespace).reverse

/-- Python `s.strip()` (ASCII whitespace model). -/
def stripStr (s : String) : String := String.mk (stripChars s.data)

/-- Python list slice `l[start:stop]` for a nonnegative `start` and an
arbitrary (possibly negative) `stop`, as used by `words[i:i + chunk_size]`. -/
def pySlice (l : List String) (start : Nat) (stop : ℤ) : List String :=
  let n : ℤ := l.length
  let st : ℤ := if stop < 0 then max 0 (n + stop) else min stop n
  (l.take st.toNat).drop start

/-- Split a char list at a separator character (pieces may be empty). -/
def splitOnCharAux (sep : Char) : List Char → List Char → List String
  | [], acc => [String.mk acc.reverse]
  | c :: rest, acc =>
    if c == sep then String.mk acc.reverse :: splitOnCharAux sep rest []
    else splitOnCharAux sep rest (c :: acc)

/-- Split a string on a separator character. -/
def splitOnChar (sep : Char) (s : String) : List String := splitOnCharAux sep s.data []

/-- Python `s.replace('_', ' ')`. -/
def replaceUnderscores (s : String) : String :=
  String.mk (s.data.map (fun c => if c = '_' then ' ' else c))

/-- Index of the last `'.'` in a char list, if any (Python `name.rfind('.')`). -/
def lastDotIdxAux : List Char → Nat → Option Nat → Option Nat
  | [], _, acc => acc
  | c :: rest, i, acc => lastDotIdxAux rest (i + 1) (if c = '.' then some i else acc)

/-- Index of the last `'.'` in a char list, if any. -/
def lastDotIdx (cs : List Char) : Option Nat := lastDotIdxAux cs 0 none

/-- `pathlib` stem of a file name: the name without its final suffix; the dot
must be neither the first nor the last character for a suffix to exist. -/
def pathStem (name : String) : String :=
  let cs := name.data
  match lastDotIdx cs with
  | some i => if 0 < i ∧ i + 1 < cs.length then String.mk (cs.take i) else name
  | none => name

/-- `pathlib.Path(p).parts`: the path segments; a leading `/` becomes a root
segment of its own, repeated and trailing separators are dropped. -/
def pathParts (p : String) : List String :=
  let segs := (splitOnChar '/' p).filter (fun x => x ≠ "")
  if leadsList ['/'] p.data then "/" :: segs else segs

/-! ## Registry helpers: Python `dict` with insertion order, as an assoc list -/

/-- Python `d[p] = h`: overwrite in place if present, else append. -/
def setReg : List (String × String) → String → String → List (String × String)
  | [], p, h => [(p, h)]
  | (q, g) :: t, p, h => if q = p then (p, h) :: t else (q, g) :: setReg t p h

/-- Python `d.get(p)`. -/
def lookupReg : List (String × String) → String → Option String
  | [], _ => none
  | (q, g) :: t, p => if q = p then some g else lookupReg t p

/-! ## Core data model -/

/-- Failure of the external embedding provider (`EmbeddingError` of the spec). -/
inductive EmbedErr
  | fail
deriving DecidableEq

/-- Python runtime exceptions that the engine code catches. -/
inductive PyErr
  | indexError
  | embedFail
deriving DecidableEq

instance {ε α : Type _} [DecidableEq ε] [DecidableEq α] : DecidableEq (Except ε α) := fun x y =>
  match x, y with
  | .ok a, .ok b =>
    if h : a = b then isTrue (by rw [h])
    else isFalse (by intro hc; cases hc; exact h rfl)
  | .ok _, .error _ => isFalse (by intro hc; cases hc)
  | .error _, .ok _ => isFalse (by intro hc; cases hc)
  | .error e, .error f =>
    if h : e = f then isTrue (by rw [h])
    else isFalse (by intro hc; cases hc; exact h rfl)

/-- An embedding vector (floats modelled as rationals). -/
abbrev Vec := List ℚ

/-- The structured metadata record of one index entry (`metadata[i]` in the
source; Python stores a dict with exactly these keys).  `chunk_id` and
`total_chunks` are added by `process_file`; for a freshly derived skeleton
they default to 0. -/
structure Meta where
  id : String
  file_path : String
  title : String
  course : String
  chapter : String
  topics : List String
  chunk_id : Nat
  total_chunks : Nat
deriving DecidableEq

/-- External collaborators of the engine, all black boxes per the spec:
the sentence encoder (fallible), `faiss.normalize_L2`, the faiss
inner-product scoring of a query vector against a stored vector,
`hashlib.md5` hex digests, and the raw text produced by the PyPDF2 /
python-docx page loops for the file at a given path. -/
structure Env where
  encode : String → Except EmbedErr Vec
  normalize : Vec → Vec
  ip : Vec → Vec → ℚ
  md5 : String → String
  pdfRaw : String → String
  docxRaw : String → String

/-- In-memory state of `FAISSManager`: the flat index (list of stored
vectors, in insertion order) and the two parallel lists. -/
structure FAISSState where
  index : List Vec
  metadata : List Meta
  documents : List String
deriving DecidableEq

/-- The parallel-sequence invariant of the spec:
`len(vector) == len(text) == len(metadata)`. -/
def aligned (s : FAISSState) : Prop :=
  s.index.length = s.metadata.length ∧ s.metadata.length = s.documents.length

instance (s : FAISSState) : Decidable (aligned s) := by
  unfold aligned; infer_instance

/-- The fixed metadata-match score `0.95` of `search_by_topic`, written in
normalized form so that the kernel can evaluate comparisons on it;
`score095_eq` below identifies it with `95/100`. -/
def score095 : ℚ := ⟨19, 20, by norm_num, by norm_num⟩

/-- The fixed content-similarity threshold `0.6` used by `search_by_topic`;
`score06_eq` below identifies it with `6/10`. -/
def score06 : ℚ := ⟨3, 5, by norm_num, by norm_num⟩

/-! ## `FAISSManager.add_document`

```python
try:
    embedding = self.encoder.encode([content]); ...
    faiss.normalize_L2(embedding)
    self.index.add(embedding)
    self.metadata.append(metadata)
    self.documents.append(content)
except Exception as e:
    print(...)
```
The encoder is the only fallible step; the `except` swallows its failure, so
on failure the state is unchanged, and on success all three appends happen. -/
def addDocument (env : Env) (s : FAISSState) (content : String) (meta : Meta) : FAISSState :=
  match env.encode content with
  | .error _ => s
  | .ok e =>
    let v := env.normalize e
    { index := s.index ++ [v]
      metadata := s.metadata ++ [meta]
      documents := s.documents ++ [content] }

/-- A whole sequence of `add_document` calls, in order. -/
def addAll (env : Env) (s : FAISSState) (ops : List (String × Meta)) : FAISSState :=
  ops.foldl (fun st op => addDocument env st op.1 op.2) s

/-! ## `FAISSManager.search`

`self.index.search(query_embedding, top_k)` is the faiss flat inner-product
index: it scores the query against every stored vector (scores produced by
the external `Env.ip`) and returns the `top_k` best entries ordered by
descending score, ties broken by ascending insertion position. -/

/-- Score every stored vector against the query vector, tagging each score
with its insertion position. -/
def scoresFrom (env : Env) (q : Vec) : List Vec → Nat → List (ℚ × Nat)
  | [], _ => []
  | v :: t, i => (env.ip q v, i) :: scoresFrom env q t (i + 1)

/-- Scores of the whole index, positions starting at 0. -/
def scoresOf (env : Env) (q : Vec) (index : List Vec) : List (ℚ × Nat) :=
  scoresFrom env q index 0

/-- Strict priority order of the flat index results: higher score first,
ties by lower insertion position. -/
def ltPair (a b : ℚ × Nat) : Prop := b.1 < a.1 ∨ (a.1 = b.1 ∧ a.2 < b.2)

/-- Non-strict version of `ltPair`, used by the insertion sort. -/
def lePair (a b : ℚ × Nat) : Prop := b.1 < a.1 ∨ (a.1 = b.1 ∧ a.2 ≤ b.2)

instance (a b : ℚ × Nat) : Decidable (ltPair a b) := by unfold ltPair; infer_instance

instance (a b : ℚ × Nat) : Decidable (lePair a b) := by unfold lePair; infer_instance

/-- Insert one scored entry into a list sorted by `lePair`. -/
def insPair (a : ℚ × Nat) : List (ℚ × Nat) → List (ℚ × Nat)
  | [] => [a]
  | b :: t => if lePair a b then a :: b :: t else b :: insPair a t

/-- Sort scored entries by descending score, ties by ascending position. -/
def sortPairs (l : List (ℚ × Nat)) : List (ℚ × Nat) := l.foldr insPair []

/-- The `top_k` faiss results: best-first prefix of the sorted scores. -/
def topSelect (l : List (ℚ × Nat)) (top_k : Nat) : List (ℚ × Nat) :=
  (sortPairs l).take top_k

/-- One entry of the result of `FAISSManager.search`:
`{'content': ..., 'metadata': ..., 'similarity': ...}`. -/
structure SearchHit where
  content : String
  metadata : Meta
  similarity : ℚ
deriving DecidableEq

/-- The result-building loop of `search`:
```python
for score, idx in zip(scores[0], indices[0]):
    if score >= similarity_threshold and idx < len(self.metadata):
        results.append({'content': self.documents[idx], ...})
```
`self.documents[idx]` raises `IndexError` when `idx` is out of range of the
documents list (possible only in a misaligned state). -/
def buildHits (s : FAISSState) (thr : ℚ) : List (ℚ × Nat) → Except PyErr (List SearchHit)
  | [] => .ok []
  | (sc, idx) :: rest =>
    if thr ≤ sc ∧ idx < s.metadata.length then
      match s.documents[idx]?, s.metadata[idx]? with
      | some d, some m => (buildHits s thr rest).map (fun hs => ⟨d, m, sc⟩ :: hs)
      | _, _ => .error .indexError
    else buildHits s thr rest

/-- Body of `FAISSManager.search` up to its surrounding `try`. -/
def searchBody (env : Env) (s : FAISSState) (query : String) (top_k : Nat) (thr : ℚ) :
    Except PyErr (List SearchHit) :=
  if s.index.length = 0 then .ok []
  else
    match env.encode query with
    | .error _ => .error .embedFail
    | .ok e => buildHits s thr (topSelect (scoresOf env (env.normalize e) s.index) top_k)

/-- `FAISSManager.search`: the `except` turns any internal failure into `[]`. -/
def search (env : Env) (s : FAISSState) (query : String) (top_k : Nat) (thr : ℚ) :
    List SearchHit :=
  match searchBody env s query top_k thr with
  | .ok r => r
  | .error _ => []

/-- The scored `(similarity, insertion position)` pairs that survive the
threshold filter of `search`, in result order (for stating the ordering
contract; `search` itself returns only content/metadata/similarity). -/
def keptPairs (s : FAISSState) (thr : ℚ) (l : List (ℚ × Nat)) : List (ℚ × Nat) :=
  l.filter (fun p => decide (thr ≤ p.1) && decide (p.2 < s.metadata.length))

/-- The scored trace of a `search` call. -/
def searchTrace (env : Env) (s : FAISSState) (query : String) (top_k : Nat) (thr : ℚ) :
    List (ℚ × Nat) :=
  if s.index.length = 0 then []
  else
    match env.encode query with
    | .error _ => []
    | .ok e => keptPairs s thr (topSelect (scoresOf env (env.normalize e) s.index) top_k)

/-! ## `FAISSManager.search_by_topic` -/

/-- Whether a match came from the metadata pass or the content pass. -/
inductive MatchType
  | metadata
  | content
deriving DecidableEq

/-- One entry of the merged result list of `search_by_topic`. -/
structure MatchR where
  content : String
  metadata : Meta
  similarity : ℚ
  match_type : MatchType
deriving DecidableEq

/-- The metadata-pass test:
`topic.lower() in title or any(topic.lower() in tag.lower() for tag in topic_tags)`
with `title = meta.get('title', '').lower()`. -/
def metaMatchB (topic : String) (m : Meta) : Bool :=
  strHasSub (lowerStr m.title) (lowerStr topic) ||
    m.topics.any (fun tag => strHasSub (lowerStr tag) (lowerStr topic))

/-- The metadata pass of `search_by_topic`: for each matching entry `i` it
reads `self.documents[i]` (an `IndexError` when the documents list is
shorter) and records a match with fixed similarity 0.95. -/
def metadataPassAux (docs : List String) (topic : String) :
    List Meta → Nat → Except PyErr (List MatchR)
  | [], _ => .ok []
  | m :: rest, i =>
    if metaMatchB topic m then
      match docs[i]? with
      | none => .error .indexError
      | some d =>
        (metadataPassAux docs topic rest (i + 1)).map
          (fun l => ⟨d, m, score095, .metadata⟩ :: l)
    else metadataPassAux docs topic rest (i + 1)

/-- The metadata pass over the whole state. -/
def metadataPass (s : FAISSState) (topic : String) : Except PyErr (List MatchR) :=
  metadataPassAux s.documents topic s.metadata 0

/-- The content pass: `self.search(topic, top_k=top_k, similarity_threshold=0.6)`
with every result tagged `match_type = 'content'`. -/
def contentMatchesOf (env : Env) (s : FAISSState) (topic : String) (top_k : Nat) :
    List MatchR :=
  (search env s topic top_k score06).map (fun h => ⟨h.content, h.metadata, h.similarity, .content⟩)

/-- Stable insertion into a list sorted by descending similarity: the new
element comes from earlier in the original list, so it goes before any
element of equal similarity (Python `sorted(..., reverse=True)` is stable). -/
def insDesc (a : MatchR) : List MatchR → List MatchR
  | [] => [a]
  | b :: t => if b.similarity ≤ a.similarity then a :: b :: t else b :: insDesc a t

/-- Stable sort by descending similarity
(`sorted(all_matches, key=lambda x: x['similarity'], reverse=True)`). -/
def sortSimDesc (l : List MatchR) : List MatchR := l.foldr insDesc []

/-- Deduplication by file-level id: first occurrence in sorted order wins.
```python
for match in sorted(...):
    match_id = match['metadata'].get('id', '')
    if match_id not in seen_indices: ...
``` -/
def dedupById : List MatchR → List String → List MatchR
  | [], _ => []
  | m :: rest, seen =>
    if m.metadata.id ∈ seen then dedupById rest seen
    else m :: dedupById rest (m.metadata.id :: seen)

/-- The result record of `search_by_topic`; `matchesList` models the
`matches` key (a Lean keyword). -/
structure TopicResult where
  matchesList : List MatchR
  total_found : Nat
  has_exact_match : Bool
deriving DecidableEq

/-- The fallback value returned by the `except` branch of `search_by_topic`. -/
def emptyTopicResult : TopicResult := ⟨[], 0, false⟩

/-- Body of `search_by_topic` up to its surrounding `try`. -/
def searchByTopicBody (env : Env) (s : FAISSState) (topic : String) (top_k : Nat) :
    Except PyErr TopicResult :=
  match metadataPass s topic with
  | .error e => .error e
  | .ok mm =>
    let all := mm ++ contentMatchesOf env s topic top_k
    let uniq := dedupById (sortSimDesc all) []
    .ok ⟨uniq.take top_k, uniq.length, decide (0 < mm.length)⟩

/-- `FAISSManager.search_by_topic`: any internal failure is caught and the
empty result structure is returned. -/
def searchByTopic (env : Env) (s : FAISSState) (topic : String) (top_k : Nat) : TopicResult :=
  match searchByTopicBody env s topic top_k with
  | .ok r => r
  | .error _ => emptyTopicResult

/-! ## `DocumentProcessor.chunk_text`

```python
if not text: return []
words = text.split()
for i in range(0, len(words), chunk_size - overlap):
    chunk = ' '.join(words[i:i + chunk_size])
    if chunk.strip(): chunks.append(chunk.strip())
```
`range` raises `ValueError` when the step is zero and yields nothing when
the step is negative. -/

/-- The runtime error of `chunk_text`: Python `ValueError: range() arg 3
must not be zero`, raised when `chunk_size - overlap == 0`. -/
inductive ChunkErr
  | zeroStep
deriving DecidableEq

/-- The `for i in range(0, len(words), step)` loop with a positive step.
The fuel argument only bounds the recursion; `words.length` fuel is always
enough because `i` grows by at least 1 per iteration
(see `chunkLoop_fuel_irrelevant`). -/
def chunkLoop (words : List String) (size : ℤ) (step : Nat) : Nat → Nat → List String
  | _, 0 => []
  | i, fuel + 1 =>
    if i < words.length then
      let c := stripStr (joinSp (pySlice words i (i + size)))
      let rest := chunkLoop words size step (i + step) fuel
      if c = "" then rest else c :: rest
    else []

/-- `DocumentProcessor.chunk_text`. -/
def chunkText (text : String) (chunk_size overlap : ℤ) : Except ChunkErr (List String) :=
  if text = "" then .ok []
  else
    let words := splitWords text
    let step := chunk_size - overlap
    if step = 0 then .error .zeroStep
    else if step < 0 then .ok []
    else .ok (chunkLoop words chunk_size step.toNat 0 words.length)

/-! ## `DocumentProcessor` ingestion pipeline -/

/-- One file of the monitored tree: its path and its raw byte content
(bytes modelled as a string). -/
structure PFile where
  path : String
  raw : String
deriving DecidableEq

/-- The persisted artifacts in the database directory: `faiss.index`,
`metadata.pkl`, `documents.pkl` and `processed_files.txt`
(`none` = the file does not exist on disk). -/
structure Disk where
  index_file : Option (List Vec)
  metadata_file : Option (List Meta)
  documents_file : Option (List String)
  processed_file : Option (List (String × String))
deriving DecidableEq

/-- Combined state of a `DocumentProcessor` and its `FAISSManager`: the
in-memory index state, the in-memory processed-file registry, and the
on-disk artifacts. -/
structure ProcState where
  fstate : FAISSState
  processed_files : List (String × String)
  disk : Disk
deriving DecidableEq

/-- `DocumentProcessor.get_file_hash`: md5 of the file's raw bytes; any
exception (e.g. the file does not exist) yields `""`. -/
def getFileHash (env : Env) (fs : List PFile) (path : String) : String :=
  match fs.find? (fun f => f.path == path) with
  | some f => env.md5 f.raw
  | none => ""

/-- `DocumentProcessor.extract_metadata_from_path`. -/
def extractMetadataFromPath (env : Env) (file_path : String) : Meta :=
  let parts := pathParts file_path
  let base : Meta :=
    { id := strTake (env.md5 file_path) 8
      file_path := file_path
      title := pathStem (parts.getLastD "")
      course := "General"
      chapter := "General"
      topics := []
      chunk_id := 0
      total_chunks := 0 }
  match parts.findIdx? (fun part => part == "documents") with
  | none => base
  | some di =>
    let course := match parts[di + 1]? with
      | some c => replaceUnderscores c
      | none => base.course
    let chapter := match parts[di + 2]? with
      | some c => replaceUnderscores c
      | none => base.chapter
    let topics := ((parts.drop (di + 1)).dropLast).map replaceUnderscores
    { base with course := course, chapter := chapter, topics := topics }

/-- Extension dispatch of `process_file` and the extension filter of the
scan loop (`.pdf` / `.docx`, case-insensitive). -/
def supportedExt (path : String) : Bool :=
  endsWithStr (lowerStr path) ".pdf" || endsWithStr (lowerStr path) ".docx"

/-- Text extraction for a supported file: `extract_text_from_pdf` /
`extract_text_from_docx` wrap the external page loops and return the
stripped text (`""` when extraction failed). -/
def extractText (env : Env) (path : String) : String :=
  if endsWithStr (lowerStr path) ".pdf" then stripStr (env.pdfRaw path)
  else if endsWithStr (lowerStr path) ".docx" then stripStr (env.docxRaw path)
  else ""

/-- The per-chunk loop of `process_file`: each chunk is added with
`chunk_id = i` and `total_chunks = len(chunks)`. -/
def addChunks (env : Env) (base : Meta) (total : Nat) :
    FAISSState → List String → Nat → FAISSState
  | s, [], _ => s
  | s, c :: rest, i =>
    addChunks env base total
      (addDocument env s c { base with chunk_id := i, total_chunks := total }) rest (i + 1)

/-- `DocumentProcessor.process_file`: returns whether the file was processed
and the updated state.  Unsupported extension and empty extracted text
return `False` before anything is touched; a `ValueError` from `chunk_text`
would be caught by the surrounding `try` and also yield `False`; otherwise
all chunks are fed to `add_document` (which swallows embedding failures)
and the file is recorded in the registry. -/
def processFile (env : Env) (fs : List PFile) (path : String) (st : ProcState) :
    Bool × ProcState :=
  if supportedExt path then
    let text := extractText env path
    if text = "" then (false, st)
    else
      let meta := extractMetadataFromPath env path
      match chunkText text 500 50 with
      | .error _ => (false, st)
      | .ok chunks =>
        let fstate := addChunks env meta chunks.length st.fstate chunks 0
        let h := getFileHash env fs path
        (true, { st with fstate := fstate, processed_files := setReg st.processed_files path h })
  else (false, st)

/-- One iteration of the scan loop: process the file when it has a supported
extension and is new or its stored fingerprint differs. -/
def scanStep (env : Env) (fs : List PFile) (acc : Nat × ProcState) (f : PFile) :
    Nat × ProcState :=
  if supportedExt f.path then
    let h := getFileHash env fs f.path
    if lookupReg acc.2.processed_files f.path = some h then acc
    else
      let r := processFile env fs f.path acc.2
      (if r.1 then acc.1 + 1 else acc.1, r.2)
  else acc

/-- `DocumentProcessor.save_processed_files`: rewrite `processed_files.txt`
from the in-memory registry. -/
def saveProcessedFiles (st : ProcState) : ProcState :=
  { st with disk := { st.disk with processed_file := some st.processed_files } }

/-- `FAISSManager.save_database`: rewrite the index, metadata and documents
artifacts from the in-memory state. -/
def saveDatabase (st : ProcState) : ProcState :=
  { st with disk :=
    { st.disk with
      index_file := some st.fstate.index
      metadata_file := some st.fstate.metadata
      documents_file := some st.fstate.documents } }

/-- `DocumentProcessor.scan_and_process_documents`: walk the file list,
process each new/changed supported file, and persist registry and index
once at the end when anything was processed.  Returns the processed count
and the final state. -/
def scanAndProcessDocuments (env : Env) (fs : List PFile) (st : ProcState) :
    Nat × ProcState :=
  let r := fs.foldl (scanStep env fs) (0, st)
  if 0 < r.1 then (r.1, saveDatabase (saveProcessedFiles r.2)) else r

/-- The empty in-memory index state. -/
def emptyFAISS : FAISSState := ⟨[], [], []⟩

/-- `FAISSManager.clear_database`: reset the in-memory index state and
delete the `faiss.index`, `metadata.pkl` and `documents.pkl` artifacts.
The `processed_files.txt` artifact and the `DocumentProcessor`'s in-memory
registry are not touched by this method. -/
def clearDatabase (st : ProcState) : ProcState :=
  { st with
    fstate := emptyFAISS
    disk := { st.disk with index_file := none, metadata_file := none, documents_file := none } }

/-- A file is settled with respect to a registry when the scan loop will not
process it again: either its stored fingerprint matches the current one, or
reprocessing it is a no-op because its text extraction is empty. -/
def settled (env : Env) (fs : List PFile) (reg : List (String × String)) (f : PFile) : Prop :=
  supportedExt f.path = true →
    (lookupReg reg f.path = some (getFileHash env fs f.path) ∨ extractText env f.path = "")

/-- A word produced by Python `split()`: nonempty and whitespace-free. -/
def goodWord (w : String) : Prop :=
  w.data ≠ [] ∧ ∀ c ∈ w.data, c.isWhitespace = false

instance (w : String) : Decidable (goodWord w) := by
  unfold goodWord; infer_instance

/-- A list of well-formed words. -/
def goodWords (ws : List String) : Prop := ∀ w ∈ ws, goodWord w

instance (ws : List String) : Decidable (goodWords ws) := by
  unfold goodWords; exact List.decidableBAll _ _

/-! ## Concrete fixtures used by witnesses and counterexamples -/

/-- An environment whose embedder always succeeds with the vector `[1]`,
whose inner product is constantly 1, whose md5 is the identity and whose
PDF extraction yields `"hello world"`. -/
def envOk : Env :=
  { encode := fun _ => .ok [1], normalize := id, ip := fun _ _ => 1,
    md5 := fun s => s, pdfRaw := fun _ => "hello world", docxRaw := fun _ => "" }

/-- An environment whose embedding provider always fails. -/
def envFail : Env := { envOk with encode := fun _ => .error .fail }

/-- An environment whose embedder fails exactly on the text `"bad"`. -/
def envPart : Env :=
  { envOk with encode := fun t => if t = "bad" then .error .fail else .ok [1] }

/-- A metadata record whose title `"alpha"` matches the topic `"alpha"` and
whose file-level id is `"f1"`. -/
def metaA : Meta := ⟨"f1", "documents/a.pdf", "alpha", "General", "General", [], 0, 1⟩

/-- A cosine score of 0.96 (greater than the fixed metadata score 0.95). -/
def score096 : ℚ := ⟨24, 25, by norm_num, by norm_num⟩

/-- A cosine score of 0.75 (above the 0.6 threshold, below 0.95). -/
def score075 : ℚ := ⟨3, 4, by norm_num, by norm_num⟩

/-- Environment whose inner product always scores 0.96. -/
def envIp096 : Env := { envOk with ip := fun _ _ => score096 }

/-- Environment whose inner product always scores 0.75. -/
def envIp075 : Env := { envOk with ip := fun _ _ => score075 }

/-- A one-entry aligned index state over `metaA`. -/
def sOne : FAISSState := ⟨[[1]], [metaA], ["doctext"]⟩

/-- A misaligned state: one metadata record but no stored document. -/
def sMis : FAISSState := ⟨[], [metaA], []⟩

/-- A one-file corpus under the `documents` tree. -/
def fsA : List PFile := [⟨"documents/CourseA/Ch1/f.pdf", "RAWBYTES"⟩]

/-- A second one-file corpus. -/
def fsB : List PFile := [⟨"documents/b.pdf", "RAWB"⟩]

/-- A third one-file corpus. -/
def fsC : List PFile := [⟨"documents/c.pdf", "RAWC"⟩]

/-- The initial processor state: empty index, empty registry, empty disk. -/
def pstEmpty : ProcState := ⟨emptyFAISS, [], ⟨none, none, none, none⟩⟩

/-- `n` distinct whitespace-free nonempty words `w0 w1 ...`. -/
def wordsN (n : Nat) : List String :=
  (List.range n).map (fun i => String.mk ('w' :: Nat.toDigits 10 i))

/-! ## Theorems -/

theorem score095_eq : score095 = 95 / 100 := by
  unfold score095
  rw [Rat.mk'_eq_divInt, Rat.divInt_eq_div]
  norm_num

theorem score06_eq : score06 = 6 / 10 := by
  unfold score06
  rw [Rat.mk'_eq_divInt, Rat.divInt_eq_div]
  norm_num

/-! ### C1: the three parallel sequences stay aligned -/

/-- A single `add_document` call preserves the alignment invariant: either
the encoder fails and the state is untouched, or all three lists grow by
one entry. -/
theorem addDocument_aligned (env : Env) (s : FAISSState) (c : String) (m : Meta)
    (h : aligned s) : aligned (addDocument env s c m) := by
  unfold addDocument
  cases henc : env.encode c with
  | error e => exact h
  | ok e =>
    obtain ⟨h1, h2⟩ := h
    exact ⟨by simp [h1], by simp [h2]⟩

/-- C1: for every sequence of `add_document` calls on the Vector Index
Engine, the three parallel sequences stay aligned:
`len(vector) == len(text) == len(metadata)` holds after every call,
including after an `add` whose embedding fails (no partial append). -/
theorem c1_parallel_sequences_aligned (env : Env) (s : FAISSState)
    (ops : List (String × Meta)) (h : aligned s) : aligned (addAll env s ops) := by
  induction ops generalizing s with
  | nil => exact h
  | cons op rest ih => exact ih _ (addDocument_aligned env s op.1 op.2 h)

/-- Witness for C1 at a concrete run in which the first add succeeds and the
second fails (the embedder rejects `"bad"`). -/
theorem c1_witness :
    aligned (addAll envPart emptyFAISS [("good", metaA), ("bad", metaA)]) :=
  c1_parallel_sequences_aligned envPart emptyFAISS [("good", metaA), ("bad", metaA)] (by decide)

/-! ### C10: `search_by_topic` is total and falls back to the empty result -/

/-- C10: `search_by_topic` never propagates an exception: it is a total
function into the `{matches, total_found, has_exact_match}` record, and any
internal failure of its body is caught and turned into the empty result
structure, while a successful body is returned unchanged. -/
theorem c10_searchByTopic_total (env : Env) (s : FAISSState) (topic : String) (top_k : Nat) :
    (∀ e, searchByTopicBody env s topic top_k = .error e →
      searchByTopic env s topic top_k = emptyTopicResult) ∧
    (∀ r, searchByTopicBody env s topic top_k = .ok r →
      searchByTopic env s topic top_k = r) := by
  constructor <;> intro x hx <;> unfold searchByTopic <;> rw [hx]

/-- Witness for C10: on a misaligned state the metadata pass raises
`IndexError` internally and `search_by_topic` returns the empty result. -/
theorem c10_witness : searchByTopic envIp096 sMis "alpha" 3 = emptyTopicResult :=
  (c10_searchByTopic_total envIp096 sMis "alpha" 3).1 .indexError (by decide)

/-! ### C7: `chunk_text` with `overlap >= size` -/

/-- Counterexample to C7: `chunk_text("a b c", size=5, overlap=6)` does not
fail at all — the negative step makes Python's `range` empty and the call
returns `[]` successfully, so no `ConfigError` (nor any error) is raised. -/
theorem c7_counterexample : chunkText "a b c" 5 6 = Except.ok [] := by decide

/-- C7 (amended): `chunk_text` performs no parameter validation.  With
`overlap > size` the step is negative, Python's `range` is empty, and the
empty chunk list is returned without error; with `overlap = size` the zero
step makes `range` raise a runtime `ValueError` (not a `ConfigError`), and
only when the text is non-empty, because the empty-text guard returns `[]`
first. -/
theorem c7_amended (text : String) (size overlap : ℤ) :
    (size < overlap → chunkText text size overlap = .ok []) ∧
    (overlap = size → text ≠ "" → chunkText text size overlap = .error .zeroStep) ∧
    (text = "" → chunkText text size overlap = .ok []) := by
  refine ⟨fun h => ?_, fun h ht => ?_, fun h => ?_⟩
  · unfold chunkText
    by_cases ht : text = ""
    · simp [ht]
    · have h1 : ¬(size - overlap = 0) := by omega
      have h2 : size - overlap < 0 := by omega
      simp [ht, h1, h2]
  · have h1 : size - overlap = 0 := by omega
    unfold chunkText
    simp [ht, h1]
  · unfold chunkText
    simp [h]

/-- Witness for C7 (amended) at concrete inputs. -/
theorem c7_witness :
    chunkText "a b" 5 7 = .ok [] ∧
    chunkText "a b" 5 5 = .error .zeroStep ∧
    chunkText "" 9 2 = .ok [] :=
  ⟨(c7_amended "a b" 5 7).1 (by norm_num),
   (c7_amended "a b" 5 5).2.1 rfl (by decide),
   (c7_amended "" 9 2).2.2 rfl⟩

/-! ### `process_file` helper lemmas -/

/-- With the default parameters `chunk_size=500, overlap=50` the step is 450,
so `chunk_text` never raises. -/
theorem chunkText_default_ok (t : String) : ∃ l, chunkText t 500 50 = Except.ok l := by
  unfold chunkText
  by_cases ht : t = ""
  · exact ⟨[], by simp [ht]⟩
  · have h1 : ¬((500 : ℤ) - 50 = 0) := by norm_num
    have h2 : ¬((500 : ℤ) - 50 < 0) := by norm_num
    exact ⟨chunkLoop (splitWords t) 500 450 0 (splitWords t).length, by simp [ht, h1, h2]⟩

/-- An unsupported extension makes `process_file` return `False` untouched. -/
theorem processFile_not_supported (env : Env) (fs : List PFile) (p : String) (st : ProcState)
    (h : supportedExt p = false) : processFile env fs p st = (false, st) := by
  unfold processFile
  simp [h]

/-- Empty extracted text makes `process_file` return `False` untouched. -/
theorem processFile_no_text (env : Env) (fs : List PFile) (p : String) (st : ProcState)
    (h : extractText env p = "") : processFile env fs p st = (false, st) := by
  unfold processFile
  by_cases hs : supportedExt p = true
  · simp [hs, h]
  · simp [hs]

/-- A supported file with non-empty text is always processed: `process_file`
returns `True` and overwrites the registry entry with the current
fingerprint (regardless of whether any `add_document` call succeeded). -/
theorem processFile_true (env : Env) (fs : List PFile) (p : String) (st : ProcState)
    (hs : supportedExt p = true) (ht : extractText env p ≠ "") :
    (processFile env fs p st).1 = true ∧
    (processFile env fs p st).2.processed_files =
      setReg st.processed_files p (getFileHash env fs p) := by
  unfold processFile
  obtain ⟨l, hl⟩ := chunkText_default_ok (extractText env p)
  simp [hs, ht, hl]

/-! ### C5: embedding failure during `add` -/

/-- Counterexample to C5: with an embedding provider that always fails,
`process_file` does not propagate any `EmbeddingError` — it returns the
ordinary success value `True`, while the index state is left empty. -/
theorem c5_counterexample :
    (processFile envFail fsB "documents/b.pdf" pstEmpty).1 = true ∧
    (processFile envFail fsB "documents/b.pdf" pstEmpty).2.fstate = emptyFAISS := by
  decide

/-- C5 (amended): when the embedding provider fails during an add, the error
is caught inside `add_document`: no entry is appended (the three parallel
sequences stay aligned because the state is completely unchanged), and the
failure does not propagate — `process_file` still completes normally and
returns `True` for any supported file with non-empty text. -/
theorem c5_amended (env : Env) (fs : List PFile) (p : String) (st : ProcState)
    (s : FAISSState) (c : String) (m : Meta) (e : EmbedErr)
    (henc : env.encode c = .error e)
    (hsup : supportedExt p = true) (htext : extractText env p ≠ "") :
    addDocument env s c m = s ∧ (processFile env fs p st).1 = true := by
  constructor
  · unfold addDocument
    rw [henc]
  · exact (processFile_true env fs p st hsup htext).1

/-- Witness for C5 (amended) with the always-failing embedder. -/
theorem c5_witness :
    addDocument envFail emptyFAISS "x" metaA = emptyFAISS ∧
    (processFile envFail fsB "documents/b.pdf" pstEmpty).1 = true :=
  c5_amended envFail fsB "documents/b.pdf" pstEmpty emptyFAISS "x" metaA .fail rfl
    (by decide) (by decide)

/-! ### C8: the meaning of the `process_file` boolean -/

/-- Counterexample to C8: with an always-failing embedder a supported file
with extractable text makes `process_file` return `True` although not a
single chunk was added to the index (it is still empty). -/
theorem c8_counterexample :
    (processFile envFail fsC "documents/c.pdf" pstEmpty).1 = true ∧
    (processFile envFail fsC "documents/c.pdf" pstEmpty).2.fstate.index = [] := by
  decide

/-- C8 (amended): `process_file` returns `True` iff the file has a supported
extension and extraction produced non-empty text; a `True` return does not
guarantee that any chunk was actually added (embedding failures are
swallowed per C5), but a `False` return always means nothing was added —
the entire state is unchanged. -/
theorem c8_amended (env : Env) (fs : List PFile) (p : String) (st : ProcState) :
    ((processFile env fs p st).1 = true ↔
      (supportedExt p = true ∧ extractText env p ≠ "")) ∧
    ((processFile env fs p st).1 = false → (processFile env fs p st).2 = st) := by
  constructor
  · constructor
    · intro h
      by_cases hs : supportedExt p = true
      · by_cases ht : extractText env p = ""
        · rw [processFile_no_text env fs p st ht] at h
          cases h
        · exact ⟨hs, ht⟩
      · rw [processFile_not_supported env fs p st (by simpa using hs)] at h
        cases h
    · rintro ⟨hs, ht⟩
      exact (processFile_true env fs p st hs ht).1
  · intro h
    by_cases hs : supportedExt p = true
    · by_cases ht : extractText env p = ""
      · rw [processFile_no_text env fs p st ht]
      · rw [(processFile_true env fs p st hs ht).1] at h
        cases h
    · rw [processFile_not_supported env fs p st (by simpa using hs)]

/-- Witness for C8 (amended): a processed file returns `True`; an
unsupported file returns `False` with the state unchanged. -/
theorem c8_witness :
    (processFile envOk fsA "documents/CourseA/Ch1/f.pdf" pstEmpty).1 = true ∧
    (processFile envOk fsA "notes.txt" pstEmpty).2 = pstEmpty :=
  ⟨(c8_amended envOk fsA "documents/CourseA/Ch1/f.pdf" pstEmpty).1.mpr
      ⟨by decide, by decide⟩,
   (c8_amended envOk fsA "notes.txt" pstEmpty).2 (by decide)⟩

/-! ### Registry and scan lemmas (for C4 and C9) -/

/-- Looking up the key just written. -/
theorem lookupReg_setReg_same (reg : List (String × String)) (p h : String) :
    lookupReg (setReg reg p h) p = some h := by
  induction reg with
  | nil => simp [setReg, lookupReg]
  | cons e t ih =>
    obtain ⟨q, g⟩ := e
    unfold setReg
    by_cases hq : q = p
    · simp [hq, lookupReg]
    · simp [hq, lookupReg, ih]

/-- Writing one key leaves the others unchanged. -/
theorem lookupReg_setReg_other (reg : List (String × String)) (p h q : String)
    (hne : q ≠ p) : lookupReg (setReg reg p h) q = lookupReg reg q := by
  have hpq : p ≠ q := fun hc => hne hc.symm
  induction reg with
  | nil => simp [setReg, lookupReg, hpq]
  | cons e t ih =>
    obtain ⟨a, b⟩ := e
    unfold setReg
    by_cases ha : a = p
    · subst ha
      simp [lookupReg, hpq]
    · simp only [ha, if_false]
      unfold lookupReg
      by_cases haq : a = q <;> simp [haq, ih]

/-- The registry after `process_file` is either untouched (skip/failure
branches) or updated at exactly the processed path with the current
fingerprint. -/
theorem processFile_registry (env : Env) (fs : List PFile) (p : String) (st : ProcState) :
    (processFile env fs p st).2.processed_files = st.processed_files ∨
    (processFile env fs p st).2.processed_files =
      setReg st.processed_files p (getFileHash env fs p) := by
  by_cases hs : supportedExt p = true
  · by_cases ht : extractText env p = ""
    · rw [processFile_no_text env fs p st ht]
      exact Or.inl rfl
    · exact Or.inr (processFile_true env fs p st hs ht).2
  · rw [processFile_not_supported env fs p st (by simpa using hs)]
    exact Or.inl rfl

/-- A scan step on a settled file changes nothing. -/
theorem scanStep_settled_acc (env : Env) (fs : List PFile) (acc : Nat × ProcState) (f : PFile)
    (h : settled env fs acc.2.processed_files f) : scanStep env fs acc f = acc := by
  unfold scanStep
  by_cases hs : supportedExt f.path = true
  · rcases h hs with hl | ht
    · simp [hs, hl]
    · by_cases hl : lookupReg acc.2.processed_files f.path = some (getFileHash env fs f.path)
      · simp [hs, hl]
      · simp [hs, hl, processFile_no_text env fs f.path acc.2 ht]
  · simp [hs]

/-- The processing branch of a scan step, written out. -/
theorem scanStep_run (env : Env) (fs : List PFile) (acc : Nat × ProcState) (f : PFile)
    (hs : supportedExt f.path = true)
    (hl : ¬ lookupReg acc.2.processed_files f.path = some (getFileHash env fs f.path)) :
    scanStep env fs acc f =
      ((if (processFile env fs f.path acc.2).1 then acc.1 + 1 else acc.1),
        (processFile env fs f.path acc.2).2) := by
  unfold scanStep
  simp [hs, hl]

/-- After its scan step, a file is settled. -/
theorem scanStep_establishes (env : Env) (fs : List PFile) (acc : Nat × ProcState) (f : PFile) :
    settled env fs (scanStep env fs acc f).2.processed_files f := by
  intro hs
  by_cases hl : lookupReg acc.2.processed_files f.path = some (getFileHash env fs f.path)
  · rw [scanStep_settled_acc env fs acc f (fun _ => Or.inl hl)]
    exact Or.inl hl
  · by_cases ht : extractText env f.path = ""
    · exact Or.inr ht
    · left
      rw [scanStep_run env fs acc f hs hl]
      show lookupReg (processFile env fs f.path acc.2).2.processed_files f.path = _
      rw [(processFile_true env fs f.path acc.2 hs ht).2]
      exact lookupReg_setReg_same _ _ _

/-- A scan step keeps every settled file settled. -/
theorem scanStep_preserves (env : Env) (fs : List PFile) (acc : Nat × ProcState)
    (f g : PFile) (h : settled env fs acc.2.processed_files g) :
    settled env fs (scanStep env fs acc f).2.processed_files g := by
  intro hs
  rcases h hs with hl | ht
  · by_cases hfs : supportedExt f.path = true
    · by_cases hfl : lookupReg acc.2.processed_files f.path = some (getFileHash env fs f.path)
      · rw [scanStep_settled_acc env fs acc f (fun _ => Or.inl hfl)]
        exact Or.inl hl
      · rw [scanStep_run env fs acc f hfs hfl]
        left
        show lookupReg (processFile env fs f.path acc.2).2.processed_files g.path = _
        rcases processFile_registry env fs f.path acc.2 with hr | hr
        · rw [hr]
          exact hl
        · rw [hr]
          by_cases hpq : g.path = f.path
          · rw [hpq, lookupReg_setReg_same, ← hpq]
          · rw [lookupReg_setReg_other _ _ _ _ hpq]
            exact hl
    · unfold scanStep
      simp only [hfs, if_false, Bool.false_eq_true]
      exact Or.inl hl
  · exact Or.inr ht

/-- The scan fold keeps every settled file settled. -/
theorem scanFold_preserves (env : Env) (fs l : List PFile) (acc : Nat × ProcState) (g : PFile)
    (h : settled env fs acc.2.processed_files g) :
    settled env fs (l.foldl (scanStep env fs) acc).2.processed_files g := by
  induction l generalizing acc with
  | nil => exact h
  | cons f t ih => exact ih _ (scanStep_preserves env fs acc f g h)

/-- After the scan fold, every visited file is settled. -/
theorem scanFold_establishes (env : Env) (fs : List PFile) (l : List PFile) :
    ∀ (acc : Nat × ProcState) (g : PFile), g ∈ l →
      settled env fs (l.foldl (scanStep env fs) acc).2.processed_files g := by
  induction l with
  | nil =>
    intro acc g hg
    cases hg
  | cons f t ih =>
    intro acc g hg
    rw [List.foldl_cons]
    rcases List.mem_cons.mp hg with heq | hmem
    · subst heq
      exact scanFold_preserves env fs t _ g (scanStep_establishes env fs acc g)
    · exact ih _ g hmem

/-- The scan fold over a list of files that are all settled is the identity. -/
theorem scanFold_settled_id (env : Env) (fs l : List PFile) (acc : Nat × ProcState)
    (h : ∀ g ∈ l, settled env fs acc.2.processed_files g) :
    l.foldl (scanStep env fs) acc = acc := by
  induction l with
  | nil => rfl
  | cons f t ih =>
    rw [List.foldl_cons, scanStep_settled_acc env fs acc f (h f (List.mem_cons_self f t))]
    exact ih (fun g hg => h g (List.mem_cons_of_mem f hg))

/-- The end-of-scan saves do not change the in-memory registry. -/
theorem scan_registry (env : Env) (fs : List PFile) (st : ProcState) :
    (scanAndProcessDocuments env fs st).2.processed_files =
      (fs.foldl (scanStep env fs) (0, st)).2.processed_files := by
  unfold scanAndProcessDocuments
  by_cases h : 0 < (fs.foldl (scanStep env fs) (0, st)).1 <;>
    simp [h, saveDatabase, saveProcessedFiles]

/-! ### C4: scanning is idempotent on an unchanged filesystem -/

/-- C4: scanning is idempotent with respect to an unchanged filesystem: a
second `scan_and_process_documents` over the same files, with no changes in
between, processes zero files and leaves the state exactly as the first
scan left it — every file is either fingerprint-matched in the registry or
deterministically re-skipped. -/
theorem c4_scan_idempotent (env : Env) (fs : List PFile) (st : ProcState) :
    scanAndProcessDocuments env fs (scanAndProcessDocuments env fs st).2 =
      (0, (scanAndProcessDocuments env fs st).2) := by
  set st1 := (scanAndProcessDocuments env fs st).2 with hst1
  have hsettled : ∀ g ∈ fs, settled env fs st1.processed_files g := by
    intro g hg
    rw [hst1, scan_registry]
    exact scanFold_establishes env fs fs (0, st) g hg
  have hfold : fs.foldl (scanStep env fs) (0, st1) = (0, st1) :=
    scanFold_settled_id env fs fs (0, st1) hsettled
  unfold scanAndProcessDocuments
  rw [hfold]
  simp

/-! ### C9: `clear_database` and the rebuild path -/

/-- Counterexample to C9: after processing a file and calling
`clear_database`, the `processed_files.txt` artifact still exists (the
registry survives the clear), and a rescan of the unchanged corpus
processes zero files and leaves the index empty — the documented
clear-plus-rescan rebuild path does not re-ingest anything. -/
theorem c9_counterexample :
    (clearDatabase (scanAndProcessDocuments envOk fsA pstEmpty).2).disk.processed_file =
      some [("documents/CourseA/Ch1/f.pdf", "RAWBYTES")] ∧
    (scanAndProcessDocuments envOk fsA
        (clearDatabase (scanAndProcessDocuments envOk fsA pstEmpty).2)).1 = 0 ∧
    (scanAndProcessDocuments envOk fsA
        (clearDatabase (scanAndProcessDocuments envOk fsA pstEmpty).2)).2.fstate.index = [] := by
  decide

/-- C9 (amended): `clear_database` discards the in-memory index state and
deletes the index, metadata and documents artifacts, but it does not touch
the `processed_files` artifact nor the in-memory registry; consequently a
rescan of an unchanged corpus after a clear processes zero files (unchanged
fingerprints are still skipped), so cleared content is not re-ingested. -/
theorem c9_amended (st : ProcState) (env : Env) (fs : List PFile) :
    (clearDatabase st).fstate = emptyFAISS ∧
    (clearDatabase st).disk.index_file = none ∧
    (clearDatabase st).disk.metadata_file = none ∧
    (clearDatabase st).disk.documents_file = none ∧
    (clearDatabase st).disk.processed_file = st.disk.processed_file ∧
    (clearDatabase st).processed_files = st.processed_files ∧
    scanAndProcessDocuments env fs (clearDatabase (scanAndProcessDocuments env fs st).2) =
      (0, clearDatabase (scanAndProcessDocuments env fs st).2) := by
  refine ⟨rfl, rfl, rfl, rfl, rfl, rfl, ?_⟩
  set st1 := (scanAndProcessDocuments env fs st).2 with hst1
  have hsettled : ∀ g ∈ fs, settled env fs (clearDatabase st1).processed_files g := by
    intro g hg
    show settled env fs st1.processed_files g
    rw [hst1, scan_registry]
    exact scanFold_establishes env fs fs (0, st) g hg
  have hfold : fs.foldl (scanStep env fs) (0, clearDatabase st1) = (0, clearDatabase st1) :=
    scanFold_settled_id env fs fs (0, clearDatabase st1) hsettled
  unfold scanAndProcessDocuments
  rw [hfold]
  simp

/-! ### Word/join/split lemmas (for C3) -/

/-- A string with nonempty char data is not the empty string. -/
theorem strNe_of_data_ne {s : String} (h : s.data ≠ []) : s ≠ "" :=
  fun hc => h (by rw [hc])

/-- The head given by `head?` is a member. -/
theorem mem_of_headEq {α : Type _} {l : List α} {c : α} (h : l.head? = some c) : c ∈ l := by
  cases l with
  | nil => cases h
  | cons a t =>
    injection h with h'
    rw [← h']
    exact List.mem_cons_self a t

/-- The last element given by `getLast?` is a member. -/
theorem mem_of_getLastEq {α : Type _} {l : List α} {c : α} (h : l.getLast? = some c) : c ∈ l := by
  rw [← List.head?_reverse] at h
  exact List.mem_reverse.mp (mem_of_headEq h)

/-- Stripping is the identity on a char list with non-whitespace ends. -/
theorem stripChars_id (cs : List Char)
    (h1 : ∀ c, cs.head? = some c → c.isWhitespace = false)
    (h2 : ∀ c, cs.getLast? = some c → c.isWhitespace = false) :
    stripChars cs = cs := by
  unfold stripChars
  have hd : cs.dropWhile Char.isWhitespace = cs := by
    cases cs with
    | nil => rfl
    | cons a t =>
      rw [List.dropWhile_cons]
      simp [h1 a rfl]
  rw [hd]
  have hr : cs.reverse.dropWhile Char.isWhitespace = cs.reverse := by
    cases hrev : cs.reverse with
    | nil => rfl
    | cons a t =>
      have ha : a.isWhitespace = false := by
        apply h2
        rw [← List.head?_reverse, hrev]
        rfl
      rw [List.dropWhile_cons]
      simp [ha]
  rw [hr, List.reverse_reverse]

/-- The char data of a two-or-more-word join. -/
theorem joinSp_data_cons₂ (w r : String) (t : List String) :
    (joinSp (w :: r :: t)).data = w.data ++ (' ' :: (joinSp (r :: t)).data) := by
  show (w ++ " " ++ joinSp (r :: t)).data = _
  rw [String.data_append, String.data_append]
  simp

/-- A join of well-formed words is a nonempty char list. -/
theorem joinSp_data_ne (ws : List String) (h : goodWords ws) (hne : ws ≠ []) :
    (joinSp ws).data ≠ [] := by
  cases ws with
  | nil => cases hne rfl
  | cons w rest =>
    cases rest with
    | nil => exact (h w (List.mem_cons_self _ _)).1
    | cons r t =>
      rw [joinSp_data_cons₂]
      intro hc
      rcases List.append_eq_nil.mp hc with ⟨h1, _⟩
      exact (h w (List.mem_cons_self _ _)).1 h1

/-- A join of well-formed words is a nonempty string. -/
theorem joinSp_ne_empty (ws : List String) (h : goodWords ws) (hne : ws ≠ []) :
    joinSp ws ≠ "" :=
  strNe_of_data_ne (joinSp_data_ne ws h hne)

/-- The first character of a join of well-formed words is not whitespace. -/
theorem joinSp_headChar (ws : List String) (h : goodWords ws) :
    ∀ c, (joinSp ws).data.head? = some c → c.isWhitespace = false := by
  intro c hc
  cases ws with
  | nil => exact Option.noConfusion hc
  | cons w rest =>
    have hw := h w (List.mem_cons_self _ _)
    cases rest with
    | nil => exact hw.2 c (mem_of_headEq hc)
    | cons r t =>
      rw [joinSp_data_cons₂, List.head?_append_of_ne_nil _ hw.1] at hc
      exact hw.2 c (mem_of_headEq hc)

/-- The last character of a join of well-formed words is not whitespace. -/
theorem joinSp_lastChar (ws : List String) (h : goodWords ws) :
    ∀ c, (joinSp ws).data.getLast? = some c → c.isWhitespace = false := by
  induction ws with
  | nil =>
    intro c hc
    exact Option.noConfusion hc
  | cons w rest ih =>
    intro c hc
    have hw := h w (List.mem_cons_self _ _)
    have hrest : goodWords rest := fun x hx => h x (List.mem_cons_of_mem _ hx)
    cases rest with
    | nil => exact hw.2 c (mem_of_getLastEq hc)
    | cons r t =>
      rw [joinSp_data_cons₂, List.getLast?_append_of_ne_nil _ (by simp)] at hc
      have hd : (joinSp (r :: t)).data ≠ [] := joinSp_data_ne _ hrest (by simp)
      rw [show (' ' :: (joinSp (r :: t)).data) = [' '] ++ (joinSp (r :: t)).data from rfl,
        List.getLast?_append_of_ne_nil _ hd] at hc
      exact ih hrest c hc

/-- Stripping is the identity on a join of well-formed words. -/
theorem stripStr_joinSp (ws : List String) (h : goodWords ws) :
    stripStr (joinSp ws) = joinSp ws := by
  unfold stripStr
  rw [stripChars_id _ (joinSp_headChar ws h) (joinSp_lastChar ws h)]

/-- The word splitter consumes a whitespace-free block into the accumulator. -/
theorem wsplitAux_skip (wcs : List Char) (h : ∀ c ∈ wcs, c.isWhitespace = false) :
    ∀ cs acc, wsplitAux (wcs ++ cs) acc = wsplitAux cs (wcs.reverse ++ acc) := by
  induction wcs with
  | nil =>
    intro cs acc
    simp
  | cons c rest ih =>
    intro cs acc
    have hc : c.isWhitespace = false := h c (List.mem_cons_self c rest)
    have hstep : wsplitAux ((c :: rest) ++ cs) acc = wsplitAux (rest ++ cs) (c :: acc) := by
      show wsplitAux (c :: (rest ++ cs)) acc = _
      simp [wsplitAux, hc]
    rw [hstep, ih (fun x hx => h x (List.mem_cons_of_mem c hx)) cs (c :: acc)]
    simp

/-- `split()` recovers the word list from a single-space join of well-formed
words (split is a left inverse of join). -/
theorem splitWords_joinSp (ws : List String) (h : goodWords ws) :
    splitWords (joinSp ws) = ws := by
  induction ws with
  | nil => rfl
  | cons w rest ih =>
    have hw := h w (List.mem_cons_self _ _)
    have hrest : goodWords rest := fun x hx => h x (List.mem_cons_of_mem _ hx)
    cases rest with
    | nil =>
      show wsplitAux w.data [] = [w]
      have h1 := wsplitAux_skip w.data hw.2 [] []
      rw [List.append_nil] at h1
      rw [h1]
      unfold wsplitAux
      have hne : w.data.reverse.isEmpty = false := by
        simp [List.isEmpty_iff, hw.1]
      simp [List.append_nil, hne]
    | cons r t =>
      show wsplitAux (joinSp (w :: r :: t)).data [] = w :: r :: t
      rw [joinSp_data_cons₂,
        wsplitAux_skip w.data hw.2 (' ' :: (joinSp (r :: t)).data) []]
      unfold wsplitAux
      have hih := ih hrest
      unfold splitWords at hih
      simp [hih, hw.1]

/-! ### Chunk-loop evaluation lemmas (for C3) -/

/-- The loop terminates (with any fuel) once the position passes the end. -/
theorem chunkLoop_out (words : List String) (size : ℤ) (step i : Nat)
    (h : ¬ i < words.length) : ∀ fuel, chunkLoop words size step i fuel = [] := by
  intro fuel
  cases fuel with
  | zero => rfl
  | succ f =>
    unfold chunkLoop
    simp [h]

/-- One unfolding of the loop at an in-range position. -/
theorem chunkLoop_in (words : List String) (size : ℤ) (step i fuel : Nat)
    (h : i < words.length) :
    chunkLoop words size step i (fuel + 1) =
      (if stripStr (joinSp (pySlice words i (i + size))) = ""
       then chunkLoop words size step (i + step) fuel
       else stripStr (joinSp (pySlice words i (i + size))) ::
         chunkLoop words size step (i + step) fuel) := by
  conv_lhs => rw [chunkLoop]
  simp [h]

/-- A Python slice whose stop bound covers the whole list is a suffix. -/
theorem pySlice_drop (ws : List String) (start : Nat) (stop : ℤ) (stopN : Nat)
    (h0 : 0 ≤ stop) (hN : stop.toNat = stopN) (hle : ws.length ≤ stopN) :
    pySlice ws start stop = ws.drop start := by
  unfold pySlice
  dsimp only
  rw [if_neg (not_lt.mpr h0)]
  have hmin : (min stop (ws.length : ℤ)).toNat = ws.length := by omega
  rw [hmin, List.take_length]

/-- A Python slice whose stop bound is inside the list. -/
theorem pySlice_take_drop (ws : List String) (start : Nat) (stop : ℤ) (stopN : Nat)
    (h0 : 0 ≤ stop) (hN : stop.toNat = stopN) (hge : stopN ≤ ws.length) :
    pySlice ws start stop = (ws.take stopN).drop start := by
  unfold pySlice
  dsimp only
  rw [if_neg (not_lt.mpr h0)]
  have hmin : (min stop (ws.length : ℤ)).toNat = stopN := by omega
  rw [hmin]

/-- `words[0:500]` is all of a 500-word list. -/
theorem pySlice_500_0 (ws : List String) (hlen : ws.length = 500) :
    pySlice ws 0 ((0 : ℕ) + (500 : ℤ)) = ws := by
  rw [pySlice_drop ws 0 _ 500 (by omega) (by omega) (by omega), List.drop_zero]

/-- `words[450:950]` of a 500-word list is the suffix from word 450. -/
theorem pySlice_500_450 (ws : List String) (hlen : ws.length = 500) :
    pySlice ws 450 ((450 : ℕ) + (500 : ℤ)) = ws.drop 450 :=
  pySlice_drop ws 450 _ 950 (by omega) (by omega) (by omega)

/-- `words[0:500]` of a 550-word list is the first 500 words. -/
theorem pySlice_550_0 (ws : List String) (hlen : ws.length = 550) :
    pySlice ws 0 ((0 : ℕ) + (500 : ℤ)) = ws.take 500 := by
  rw [pySlice_take_drop ws 0 _ 500 (by omega) (by omega) (by omega), List.drop_zero]

/-- `words[450:950]` of a 550-word list is the suffix from word 450. -/
theorem pySlice_550_450 (ws : List String) (hlen : ws.length = 550) :
    pySlice ws 450 ((450 : ℕ) + (500 : ℤ)) = ws.drop 450 :=
  pySlice_drop ws 450 _ 950 (by omega) (by omega) (by omega)

/-- `chunk_text` on a text of exactly 500 well-formed words: the loop visits
positions 0 and 450, so it returns two chunks, the second being the
(redundant) final window of the last 50 words. -/
theorem chunkText_500 (ws : List String) (h : goodWords ws) (hlen : ws.length = 500) :
    chunkText (joinSp ws) 500 50 = .ok [joinSp ws, joinSp (ws.drop 450)] := by
  have hne : ws ≠ [] := by
    intro hc
    rw [hc] at hlen
    cases hlen
  have htext : joinSp ws ≠ "" := joinSp_ne_empty ws h hne
  have hdrop_good : goodWords (ws.drop 450) := fun x hx => h x (List.mem_of_mem_drop hx)
  have hdrop_ne : ws.drop 450 ≠ [] := by
    have : (ws.drop 450).length = 50 := by rw [List.length_drop, hlen]
    intro hc
    rw [hc] at this
    cases this
  unfold chunkText
  rw [if_neg htext]
  simp only [splitWords_joinSp ws h]
  norm_num
  rw [hlen, show Int.toNat 450 = 450 from rfl]
  rw [show (500 : ℕ) = 499 + 1 from rfl,
    chunkLoop_in ws 500 450 0 499 (by omega),
    pySlice_500_0 ws hlen, stripStr_joinSp ws h, if_neg htext]
  rw [show (0 : ℕ) + 450 = 450 from rfl,
    show (499 : ℕ) = 498 + 1 from rfl,
    chunkLoop_in ws 500 450 450 498 (by omega),
    pySlice_500_450 ws hlen, stripStr_joinSp _ hdrop_good,
    if_neg (joinSp_ne_empty _ hdrop_good hdrop_ne)]
  rw [chunkLoop_out ws 500 450 (450 + 450) (by omega) 498]

/-- `chunk_text` on a text of exactly 550 well-formed words: two chunks, the
second starting at word 450. -/
theorem chunkText_550 (ws : List String) (h : goodWords ws) (hlen : ws.length = 550) :
    chunkText (joinSp ws) 500 50 = .ok [joinSp (ws.take 500), joinSp (ws.drop 450)] := by
  have hne : ws ≠ [] := by
    intro hc
    rw [hc] at hlen
    cases hlen
  have htext : joinSp ws ≠ "" := joinSp_ne_empty ws h hne
  have htake_good : goodWords (ws.take 500) := fun x hx => h x (List.mem_of_mem_take hx)
  have htake_ne : ws.take 500 ≠ [] := by
    have : (ws.take 500).length = 500 := by
      rw [List.length_take, hlen]
      omega
    intro hc
    rw [hc] at this
    cases this
  have hdrop_good : goodWords (ws.drop 450) := fun x hx => h x (List.mem_of_mem_drop hx)
  have hdrop_ne : ws.drop 450 ≠ [] := by
    have : (ws.drop 450).length = 100 := by rw [List.length_drop, hlen]
    intro hc
    rw [hc] at this
    cases this
  unfold chunkText
  rw [if_neg htext]
  simp only [splitWords_joinSp ws h]
  norm_num
  rw [hlen, show Int.toNat 450 = 450 from rfl]
  rw [show (550 : ℕ) = 549 + 1 from rfl,
    chunkLoop_in ws 500 450 0 549 (by omega),
    pySlice_550_0 ws hlen, stripStr_joinSp _ htake_good,
    if_neg (joinSp_ne_empty _ htake_good htake_ne)]
  rw [show (0 : ℕ) + 450 = 450 from rfl,
    show (549 : ℕ) = 548 + 1 from rfl,
    chunkLoop_in ws 500 450 450 548 (by omega),
    pySlice_550_450 ws hlen, stripStr_joinSp _ hdrop_good,
    if_neg (joinSp_ne_empty _ hdrop_good hdrop_ne)]
  rw [chunkLoop_out ws 500 450 (450 + 450) (by omega) 548]

/-! ### C3: chunking boundaries -/

set_option maxRecDepth 40000 in
/-- Counterexample to C3: on a text of exactly 500 words, `chunk_text` with
`size=500, overlap=50` returns two chunks, not one — `range(0, 500, 450)`
visits 0 and 450, and the final window `words[450:950]` is non-empty. -/
theorem c3_counterexample :
    Except.map List.length (chunkText (joinSp (wordsN 500)) 500 50) = Except.ok 2 := by
  rw [chunkText_500 (wordsN 500) (by decide) (by decide)]
  rfl

/-- C3 (amended): `chunk_text(size=500, overlap=50)` advances its window by
450 words per step and keeps the final partial window when non-empty; on a
text of exactly 500 words this yields TWO chunks (the full text, then the
redundant final window of words 450..499), and on a text of 550 words it
yields two chunks with the second starting at word 450. -/
theorem c3_amended (ws : List String) (h : goodWords ws) :
    (ws.length = 500 →
      chunkText (joinSp ws) 500 50 = .ok [joinSp ws, joinSp (ws.drop 450)]) ∧
    (ws.length = 550 →
      chunkText (joinSp ws) 500 50 = .ok [joinSp (ws.take 500), joinSp (ws.drop 450)]) :=
  ⟨fun hl => chunkText_500 ws h hl, fun hl => chunkText_550 ws h hl⟩

set_option maxRecDepth 40000 in
/-- Witness for C3 (amended) on concrete 500- and 550-word texts. -/
theorem c3_witness :
    chunkText (joinSp (wordsN 500)) 500 50 =
      .ok [joinSp (wordsN 500), joinSp ((wordsN 500).drop 450)] ∧
    chunkText (joinSp (wordsN 550)) 500 50 =
      .ok [joinSp ((wordsN 550).take 500), joinSp ((wordsN 550).drop 450)] :=
  ⟨(c3_amended (wordsN 500) (by decide)).1 (by decide),
   (c3_amended (wordsN 550) (by decide)).2 (by decide)⟩

/-! ### Flat-index ordering lemmas (for C6) -/

/-- The result priority order is transitive. -/
theorem ltPair_trans {a b c : ℚ × Nat} (h1 : ltPair a b) (h2 : ltPair b c) : ltPair a c := by
  unfold ltPair at h1 h2 ⊢
  rcases h1 with h1 | ⟨h1e, h1i⟩ <;> rcases h2 with h2 | ⟨h2e, h2i⟩
  · exact Or.inl (h2.trans h1)
  · exact Or.inl (h2e ▸ h1)
  · exact Or.inl (h1e ▸ h2)
  · exact Or.inr ⟨h1e.trans h2e, h1i.trans h2i⟩

/-- A failed `lePair` test flips to a strict `ltPair` the other way. -/
theorem ltPair_of_not_le {a b : ℚ × Nat} (h : ¬ lePair a b) :
    ltPair b a := by
  unfold lePair at h
  unfold ltPair
  push_neg at h
  obtain ⟨h1, h2⟩ := h
  rcases lt_or_eq_of_le h1 with hlt | heq
  · exact Or.inl hlt
  · right
    refine ⟨heq.symm, ?_⟩
    have := h2 heq
    omega

/-- On entries with distinct positions, `lePair` strengthens to `ltPair`. -/
theorem ltPair_of_lePair_ne {a b : ℚ × Nat} (h : lePair a b) (hne : a.2 ≠ b.2) :
    ltPair a b := by
  rcases h with h | ⟨he, hi⟩
  · exact Or.inl h
  · exact Or.inr ⟨he, lt_of_le_of_ne hi hne⟩

/-- Membership after an insertion. -/
theorem mem_insPair {x a : ℚ × Nat} {l : List (ℚ × Nat)} :
    x ∈ insPair a l ↔ x = a ∨ x ∈ l := by
  induction l with
  | nil => simp [insPair]
  | cons b t ih =>
    unfold insPair
    by_cases h : lePair a b
    · simp [h]
    · simp [h, ih]
      tauto

/-- Inserting into a strictly sorted list keeps it strictly sorted, provided
the new entry's position is fresh. -/
theorem insPair_pairwise (a : ℚ × Nat) (l : List (ℚ × Nat))
    (hne : ∀ x ∈ l, a.2 ≠ x.2) (hp : List.Pairwise ltPair l) :
    List.Pairwise ltPair (insPair a l) := by
  induction l with
  | nil => simp [insPair]
  | cons b t ih =>
    unfold insPair
    rcases List.pairwise_cons.mp hp with ⟨hbt, hpt⟩
    by_cases h : lePair a b
    · rw [if_pos h]
      have hab : ltPair a b := ltPair_of_lePair_ne h (hne b (List.mem_cons_self _ _))
      refine List.pairwise_cons.mpr ⟨?_, hp⟩
      intro x hx
      rcases List.mem_cons.mp hx with hxb | hxt
      · exact hxb ▸ hab
      · exact ltPair_trans hab (hbt x hxt)
    · rw [if_neg h]
      have hba : ltPair b a := ltPair_of_not_le h
      refine List.pairwise_cons.mpr
        ⟨?_, ih (fun x hx => hne x (List.mem_cons_of_mem _ hx)) hpt⟩
      intro x hx
      rcases mem_insPair.mp hx with hxa | hxt
      · exact hxa ▸ hba
      · exact hbt x hxt

/-- Sorting preserves membership. -/
theorem mem_sortPairs {x : ℚ × Nat} {l : List (ℚ × Nat)} :
    x ∈ sortPairs l ↔ x ∈ l := by
  induction l with
  | nil => simp [sortPairs]
  | cons a t ih =>
    show x ∈ insPair a (sortPairs t) ↔ _
    rw [mem_insPair]
    simp [ih]

/-- The sorted scores are strictly ordered by descending score with ties
broken by ascending insertion position, given distinct positions. -/
theorem sortPairs_pairwise (l : List (ℚ × Nat))
    (h : List.Pairwise (fun a b => a.2 ≠ b.2) l) :
    List.Pairwise ltPair (sortPairs l) := by
  induction l with
  | nil => exact List.Pairwise.nil
  | cons a t ih =>
    rcases List.pairwise_cons.mp h with ⟨hat, ht⟩
    show List.Pairwise ltPair (insPair a (sortPairs t))
    exact insPair_pairwise a _ (fun x hx => hat x (mem_sortPairs.mp hx)) (ih ht)

/-- Scored entries carry positions at or after the start position. -/
theorem scoresFrom_snd_ge (env : Env) (q : Vec) :
    ∀ (l : List Vec) (i : Nat) (x : ℚ × Nat), x ∈ scoresFrom env q l i → i ≤ x.2 := by
  intro l
  induction l with
  | nil =>
    intro i x hx
    cases hx
  | cons v t ih =>
    intro i x hx
    rcases List.mem_cons.mp hx with he | hm
    · rw [he]
    · exact (Nat.le_succ i).trans (ih (i + 1) x hm)

/-- The scored entries of the flat scan have pairwise distinct positions. -/
theorem scoresFrom_pairwise_ne (env : Env) (q : Vec) :
    ∀ (l : List Vec) (i : Nat),
      List.Pairwise (fun a b : ℚ × Nat => a.2 ≠ b.2) (scoresFrom env q l i) := by
  intro l
  induction l with
  | nil =>
    intro i
    exact List.Pairwise.nil
  | cons v t ih =>
    intro i
    refine List.pairwise_cons.mpr ⟨?_, ih (i + 1)⟩
    intro x hx
    have := scoresFrom_snd_ge env q t (i + 1) x hx
    show i ≠ x.2
    omega

/-- Unfolding of the threshold filter on a cons cell. -/
theorem keptPairs_cons (s : FAISSState) (thr sc : ℚ) (idx : Nat) (rest : List (ℚ × Nat)) :
    keptPairs s thr ((sc, idx) :: rest) =
      if thr ≤ sc ∧ idx < s.metadata.length then (sc, idx) :: keptPairs s thr rest
      else keptPairs s thr rest := by
  unfold keptPairs
  rw [List.filter_cons]
  by_cases hc : thr ≤ sc ∧ idx < s.metadata.length
  · simp [hc.1, hc.2]
  · have hp : (decide (thr ≤ sc) && decide (idx < s.metadata.length)) = false := by
      rcases not_and_or.mp hc with h | h <;> simp [h]
    simp [hp, hc]

/-- Every entry surviving the threshold filter scores at least the threshold. -/
theorem keptPairs_thr (s : FAISSState) (thr : ℚ) (l : List (ℚ × Nat)) :
    ∀ p ∈ keptPairs s thr l, thr ≤ p.1 := by
  intro p hp
  unfold keptPairs at hp
  have := List.of_mem_filter hp
  simp at this
  exact this.1

/-- In a state whose documents list covers the metadata list, the result
loop of `search` cannot raise, and the result similarities are exactly the
scores surviving the filter, in order. -/
theorem buildHits_ok (s : FAISSState) (thr : ℚ) (hms : s.metadata.length ≤ s.documents.length) :
    ∀ l : List (ℚ × Nat), ∃ hits, buildHits s thr l = .ok hits ∧
      hits.map SearchHit.similarity = (keptPairs s thr l).map Prod.fst := by
  intro l
  induction l with
  | nil => exact ⟨[], rfl, rfl⟩
  | cons p rest ih =>
    obtain ⟨sc, idx⟩ := p
    obtain ⟨hits, hok, hmap⟩ := ih
    by_cases hc : thr ≤ sc ∧ idx < s.metadata.length
    · have hdoc : idx < s.documents.length := lt_of_lt_of_le hc.2 hms
      have hds : s.documents[idx]? = some s.documents[idx] := List.getElem?_eq_getElem hdoc
      have hmd : s.metadata[idx]? = some s.metadata[idx] := List.getElem?_eq_getElem hc.2
      refine ⟨⟨s.documents[idx], s.metadata[idx], sc⟩ :: hits, ?_, ?_⟩
      · unfold buildHits
        rw [if_pos hc, hds, hmd, hok]
        rfl
      · rw [keptPairs_cons, if_pos hc]
        simp only [List.map_cons]
        rw [hmap]
    · refine ⟨hits, ?_, ?_⟩
      · unfold buildHits
        rw [if_neg hc]
        exact hok
      · rw [keptPairs_cons, if_neg hc]
        exact hmap

/-- The scored trace of any `search` call is strictly ordered by descending
similarity, ties broken by ascending insertion position. -/
theorem searchTrace_pairwise (env : Env) (s : FAISSState) (q : String) (top_k : Nat) (thr : ℚ) :
    List.Pairwise ltPair (searchTrace env s q top_k thr) := by
  unfold searchTrace
  by_cases h0 : s.index.length = 0
  · simp [h0]
  · rw [if_neg h0]
    cases henc : env.encode q with
    | error e => exact List.Pairwise.nil
    | ok e =>
      unfold keptPairs topSelect
      exact (sortPairs_pairwise _
          (scoresFrom_pairwise_ne env (env.normalize e) s.index 0)).sublist
        ((List.filter_sublist _).trans (List.take_sublist _ _))

/-! ### C6: the `search` contract -/

/-- C6: on an aligned index state, `search` returns at most `top_k` results,
each with similarity at least the threshold; the scored trace of the call is
ordered by descending similarity with ties broken by ascending insertion
position, and the returned similarities are exactly the trace scores in that
order; an empty index yields the empty result list, not an error. -/
theorem c6_search_contract (env : Env) (s : FAISSState) (q : String) (top_k : Nat) (thr : ℚ)
    (hal : aligned s) :
    (s.index = [] → search env s q top_k thr = []) ∧
    (search env s q top_k thr).length ≤ top_k ∧
    (∀ hit ∈ search env s q top_k thr, thr ≤ hit.similarity) ∧
    List.Pairwise ltPair (searchTrace env s q top_k thr) ∧
    (search env s q top_k thr).map SearchHit.similarity =
      (searchTrace env s q top_k thr).map Prod.fst := by
  have hms : s.metadata.length ≤ s.documents.length := le_of_eq hal.2
  by_cases h0 : s.index.length = 0
  · have hs : search env s q top_k thr = [] := by
      unfold search searchBody
      rw [if_pos h0]
    have htr : searchTrace env s q top_k thr = [] := by
      unfold searchTrace
      rw [if_pos h0]
    rw [hs, htr]
    exact ⟨fun _ => rfl, by simp, by simp, List.Pairwise.nil, rfl⟩
  · cases henc : env.encode q with
    | error e =>
      have hs : search env s q top_k thr = [] := by
        unfold search searchBody
        rw [if_neg h0, henc]
      have htr : searchTrace env s q top_k thr = [] := by
        unfold searchTrace
        rw [if_neg h0, henc]
      rw [hs, htr]
      exact ⟨fun _ => rfl, by simp, by simp, List.Pairwise.nil, rfl⟩
    | ok e =>
      obtain ⟨hits, hok, hmap⟩ :=
        buildHits_ok s thr hms (topSelect (scoresOf env (env.normalize e) s.index) top_k)
      have hs : search env s q top_k thr = hits := by
        unfold search searchBody
        rw [if_neg h0, henc]
        simp only [hok]
      have htr : searchTrace env s q top_k thr =
          keptPairs s thr (topSelect (scoresOf env (env.normalize e) s.index) top_k) := by
        unfold searchTrace
        rw [if_neg h0, henc]
      refine ⟨?_, ?_, ?_, searchTrace_pairwise env s q top_k thr, ?_⟩
      · intro hc
        exact absurd (by simp [hc] : s.index.length = 0) h0
      · rw [hs]
        have h1 : hits.length =
            (keptPairs s thr (topSelect (scoresOf env (env.normalize e) s.index) top_k)).length := by
          have := congrArg List.length hmap
          simpa using this
        rw [h1]
        calc (keptPairs s thr (topSelect (scoresOf env (env.normalize e) s.index) top_k)).length
            ≤ (topSelect (scoresOf env (env.normalize e) s.index) top_k).length := by
              unfold keptPairs
              exact List.length_filter_le _ _
          _ ≤ top_k := by
              unfold topSelect
              exact List.length_take_le _ _
      · intro hit hhit
        rw [hs] at hhit
        have hmem : hit.similarity ∈ hits.map SearchHit.similarity :=
          List.mem_map_of_mem _ hhit
        rw [hmap] at hmem
        rcases List.mem_map.mp hmem with ⟨p, hp, hpe⟩
        rw [← hpe]
        exact keptPairs_thr s thr _ p hp
      · rw [hs, htr]
        exact hmap

/-- Witness for C6 at a concrete aligned one-entry state. -/
theorem c6_witness :
    (search envIp075 sOne "alpha" 2 score06).length ≤ 2 ∧
    (∀ hit ∈ search envIp075 sOne "alpha" 2 score06, score06 ≤ hit.similarity) ∧
    (search envIp075 sOne "alpha" 2 score06).map SearchHit.similarity =
      (searchTrace envIp075 sOne "alpha" 2 score06).map Prod.fst :=
  ⟨(c6_search_contract envIp075 sOne "alpha" 2 score06 (by decide)).2.1,
   (c6_search_contract envIp075 sOne "alpha" 2 score06 (by decide)).2.2.1,
   (c6_search_contract envIp075 sOne "alpha" 2 score06 (by decide)).2.2.2.2⟩

/-! ### Metadata-pass and merge lemmas (for C2) -/

/-- Every match produced by the metadata pass carries the fixed similarity
0.95 and `match_type = metadata`. -/
theorem metadataPassAux_fixed (docs : List String) (topic : String) :
    ∀ (ms : List Meta) (i : Nat) (l : List MatchR),
      metadataPassAux docs topic ms i = .ok l →
      ∀ x ∈ l, x.similarity = score095 ∧ x.match_type = .metadata := by
  intro ms
  induction ms with
  | nil =>
    intro i l hl x hx
    injection hl with h
    rw [← h] at hx
    cases hx
  | cons m rest ih =>
    intro i l hl x hx
    unfold metadataPassAux at hl
    by_cases hm : metaMatchB topic m = true
    · rw [if_pos hm] at hl
      cases hd : docs[i]? with
      | none =>
        rw [hd] at hl
        cases hl
      | some d =>
        rw [hd] at hl
        cases hrec : metadataPassAux docs topic rest (i + 1) with
        | error e =>
          rw [hrec] at hl
          cases hl
        | ok tl =>
          rw [hrec] at hl
          simp only [Except.map] at hl
          injection hl with h
          rw [← h] at hx
          rcases List.mem_cons.mp hx with hxh | hxt
          · rw [hxh]
            exact ⟨rfl, rfl⟩
          · exact ih (i + 1) tl hrec x hxt
    · rw [if_neg hm] at hl
      exact ih (i + 1) l hl x hx

/-- The matches of a successful metadata pass all carry similarity 0.95 and
`match_type = metadata`. -/
theorem metadataPass_fixed (s : FAISSState) (topic : String) (l : List MatchR)
    (h : metadataPass s topic = .ok l) :
    ∀ x ∈ l, x.similarity = score095 ∧ x.match_type = .metadata :=
  metadataPassAux_fixed s.documents topic s.metadata 0 l h

/-! ### C2: hybrid dedup priority -/

/-- Counterexample to C2: in a one-entry state whose title matches the topic
and whose content similarity is 0.96, both passes produce a match with the
same file id `"f1"`, but the merged result's single entry is the CONTENT
match with similarity 0.96 — not the metadata match with 0.95 — because the
sort places the higher-scored content match first and dedup keeps the first
occurrence. -/
theorem c2_counterexample :
    metadataPass sOne "alpha" = .ok [⟨"doctext", metaA, score095, .metadata⟩] ∧
    contentMatchesOf envIp096 sOne "alpha" 3 = [⟨"doctext", metaA, score096, .content⟩] ∧
    searchByTopic envIp096 sOne "alpha" 3 =
      ⟨[⟨"doctext", metaA, score096, .content⟩], 1, true⟩ := by
  decide

/-- C2 (amended): when the index state produces exactly one metadata match
and one content match sharing the same file-level id, and the content
match's similarity does not exceed 0.95, `search_by_topic` returns exactly
one merged entry for that id: the metadata match, with `match_type =
metadata` and similarity 0.95 (if the content similarity exceeded 0.95, the
content match would win the dedup instead, per the counterexample). -/
theorem c2_amended (env : Env) (s : FAISSState) (topic : String) (top_k : Nat)
    (m c : MatchR)
    (hm : metadataPass s topic = .ok [m])
    (hc : contentMatchesOf env s topic top_k = [c])
    (hid : c.metadata.id = m.metadata.id)
    (hsim : c.similarity ≤ score095)
    (hk : 1 ≤ top_k) :
    searchByTopic env s topic top_k = ⟨[m], 1, true⟩ ∧
    m.match_type = .metadata ∧ m.similarity = score095 := by
  have hfix := metadataPass_fixed s topic [m] hm m (List.mem_cons_self _ _)
  refine ⟨?_, hfix.2, hfix.1⟩
  have hsort : sortSimDesc ([m] ++ [c]) = [m, c] := by
    show insDesc m (insDesc c []) = [m, c]
    show insDesc m [c] = [m, c]
    unfold insDesc
    rw [if_pos (by rw [hfix.1]; exact hsim)]
  have hdedup : dedupById [m, c] [] = [m] := by
    have h2 : dedupById [c] [m.metadata.id] = [] := by
      unfold dedupById
      rw [if_pos (List.mem_singleton.mpr hid)]
      rfl
    unfold dedupById
    rw [if_neg (List.not_mem_nil m.metadata.id), h2]
  have htake : [m].take top_k = [m] :=
    List.take_of_length_le (by simpa using hk)
  unfold searchByTopic searchByTopicBody
  rw [hm]
  simp only [hc, hsort, hdedup]
  simp [htake]

/-- Witness for C2 (amended): a one-entry state whose content similarity is
0.75 — the metadata match wins. -/
theorem c2_witness :
    searchByTopic envIp075 sOne "alpha" 3 =
      ⟨[⟨"doctext", metaA, score095, .metadata⟩], 1, true⟩ :=
  (c2_amended envIp075 sOne "alpha" 3 ⟨"doctext", metaA, score095, .metadata⟩
    ⟨"doctext", metaA, score075, .content⟩ (by decide) (by decide) rfl (by decide)
    (by decide)).1

end Edumate
